import Mathlib

/-!
Shallow embedding of the perf-test load generator (src/main.go) and proofs about
the claims of its specification.

Modelling conventions:
* Go `int`/`int64` values are modelled as `Int` (no overflow modelling; all
  quantities appearing in the claims stay far below 2^63).
* Wall-clock instants are `Int` nanoseconds (a `time.Time` difference is a
  signed `time.Duration`); durations of completed passes are `Nat` nanoseconds
  (the clock used by `time.Since` is monotone).
* Go `float64` arithmetic (`Seconds()`, rate computations, the target-memory
  product) is modelled over `ℚ`; conversion `int64(x)` of a nonnegative float
  truncates toward zero, i.e. is the floor.
* Each `mutex.Lock() ... Unlock()` region is one atomic step.
* The one-shot stop channel is modelled by a poll counter: every `select` poll
  increments the counter, and the channel reads as closed as soon as
  `stopAfter` polls have happened.
-/

namespace PerfTest

/-- Trial-division loop of `isPrime` (src/main.go lines 201-205):
`for i := 3; i*i <= n; i += 2 { if n%i == 0 { return false } }`.
The loop is only entered with `n ≥ 3`, so `Nat` is faithful. -/
def isPrimeLoop (n : Nat) (i : Nat) : Bool :=
  if h : i * i ≤ n then
    if n % i = 0 then false else isPrimeLoop n (i + 2)
  else true
termination_by n + 2 - i
decreasing_by
  rcases Nat.eq_zero_or_pos i with h0 | h0
  · omega
  · have hii : i ≤ i * i := Nat.le_mul_of_pos_left i h0
    omega

/-- The Go primality test `isPrime` (src/main.go lines 191-207). -/
def isPrime (n : Int) : Bool :=
  if n < 2 then false
  else if n = 2 then true
  else if n % 2 = 0 then false
  else isPrimeLoop n.toNat 3

/-- Prime-counting pass of `benchmarkPrimality` (src/main.go lines 148-154):
`primeCount := 0; for i := 2; i < config.primeRange; i++ { if isPrime(i) { primeCount++ } }`. -/
def primePassLoop (primeRange : Int) (i : Nat) (primeCount : Nat) : Nat :=
  if h : (i : Int) < primeRange then
    primePassLoop primeRange (i + 1) (if isPrime i then primeCount + 1 else primeCount)
  else primeCount
termination_by (primeRange - i).toNat

/-- One full pass over `[2, primeRange)` (src/main.go lines 148-154). -/
def primePass (primeRange : Int) : Nat := primePassLoop primeRange 2 0

theorem isPrimeLoop_iff (n i : Nat) :
    isPrimeLoop n i = true ↔ ∀ j, i ≤ j → (j - i) % 2 = 0 → j * j ≤ n → ¬ j ∣ n := by
  rw [isPrimeLoop]
  by_cases h : i * i ≤ n
  · rw [dif_pos h]
    by_cases hmod : n % i = 0
    · rw [if_pos hmod]
      constructor
      · intro hf
        exact absurd hf (by simp)
      · intro hall
        exact absurd (Nat.dvd_of_mod_eq_zero hmod) (hall i le_rfl (by omega) h)
    · rw [if_neg hmod, isPrimeLoop_iff n (i + 2)]
      constructor
      · intro hrec j hij hpar hsq
        rcases Nat.eq_or_lt_of_le hij with heq | hlt
        · subst heq
          intro hdvd
          obtain ⟨c, rfl⟩ := hdvd
          exact hmod (Nat.mul_mod_right i c)
        · exact hrec j (by omega) (by omega) hsq
      · intro hall j hij hpar hsq
        exact hall j (by omega) (by omega) hsq
  · rw [dif_neg h]
    simp only [true_iff]
    intro j hij _ hsq
    exact absurd (le_trans (Nat.mul_le_mul hij hij) hsq) h
termination_by n + 2 - i
decreasing_by
  rcases Nat.eq_zero_or_pos i with h0 | h0
  · omega
  · have hii : i ≤ i * i := Nat.le_mul_of_pos_left i h0
    omega

theorem isPrime_iff (k : Int) : isPrime k = true ↔ 2 ≤ k ∧ Nat.Prime k.toNat := by
  unfold isPrime
  by_cases hlt : k < 2
  · rw [if_pos hlt]
    simp only [Bool.false_eq_true, false_iff, not_and]
    intro h
    exact absurd h (by omega)
  · rw [if_neg hlt]
    by_cases h2 : k = 2
    · subst h2
      simp [Nat.prime_two]
    · rw [if_neg h2]
      have hk3 : 3 ≤ k := by omega
      by_cases heven : k % 2 = 0
      · rw [if_pos heven]
        simp only [Bool.false_eq_true, false_iff, not_and]
        intro _
        have h2dvd : 2 ∣ k.toNat := by
          have h2k : (2 : Int) ∣ k := Int.dvd_of_emod_eq_zero heven
          omega
        intro hp
        have := (Nat.Prime.eq_one_or_self_of_dvd hp 2 h2dvd)
        omega
      · rw [if_neg heven, isPrimeLoop_iff]
        set m := k.toNat with hm
        have hm3 : 3 ≤ m := by omega
        have hmodd : m % 2 = 1 := by omega
        constructor
        · intro hall
          refine ⟨by omega, ?_⟩
          by_contra hnp
          have hmf := Nat.minFac_prime (by omega : m ≠ 1)
          have hdvd : m.minFac ∣ m := Nat.minFac_dvd m
          have hsq : m.minFac * m.minFac ≤ m := by
            have := Nat.minFac_sq_le_self (by omega : 0 < m) hnp
            simpa [pow_two] using this
          have hne2 : m.minFac ≠ 2 := by
            intro h2'
            have : 2 ∣ m := h2' ▸ hdvd
            omega
          have hodd : m.minFac % 2 = 1 := by
            rcases Nat.mod_two_eq_zero_or_one m.minFac with hh | hh
            · exact absurd (Nat.Prime.eq_one_or_self_of_dvd hmf 2 (Nat.dvd_of_mod_eq_zero hh))
                (by
                  have := hmf.two_le
                  omega)
            · exact hh
          have hge3 : 3 ≤ m.minFac := by
            have := hmf.two_le
            omega
          exact hall m.minFac hge3 (by omega) hsq hdvd
        · intro hp j hj3 hpar hsq hdvd
          rcases (Nat.Prime.eq_one_or_self_of_dvd hp.2 j hdvd) with h1 | hself
          · omega
          · subst hself
            nlinarith

theorem primePassLoop_eq (primeRange : Int) (i : Nat) (c : Nat) :
    primePassLoop primeRange i c =
      c + ((Finset.Ico i primeRange.toNat).filter (fun p : Nat => isPrime (p : Int) = true)).card := by
  rw [primePassLoop]
  by_cases h : (i : Int) < primeRange
  · rw [dif_pos h, primePassLoop_eq primeRange (i + 1)]
    have hi : i < primeRange.toNat := by omega
    have hsplit : Finset.Ico i primeRange.toNat = insert i (Finset.Ico (i + 1) primeRange.toNat) :=
      (Nat.Ico_insert_succ_left hi).symm
    rw [hsplit, Finset.filter_insert]
    by_cases hp : isPrime (i : Int) = true
    · rw [if_pos hp, if_pos hp, Finset.card_insert_of_not_mem (by simp)]
      omega
    · rw [if_neg hp, if_neg hp]
  · rw [dif_neg h]
    have hemp : Finset.Ico i primeRange.toNat = ∅ := by
      apply Finset.Ico_eq_empty
      omega
    simp [hemp]
termination_by (primeRange - i).toNat

theorem primePass_eq (primeRange : Int) :
    primePass primeRange =
      ((Finset.range primeRange.toNat).filter (fun p => Nat.Prime p)).card := by
  rw [primePass, primePassLoop_eq, Nat.zero_add]
  apply Finset.card_bij (fun a _ => a)
  · intro a ha
    simp only [Finset.mem_filter, Finset.mem_Ico] at ha
    have hpa := (isPrime_iff a).mp ha.2
    simp only [Finset.mem_filter, Finset.mem_range]
    exact ⟨ha.1.2, by simpa using hpa.2⟩
  · intro a _ b _ h
    exact h
  · intro b hb
    simp only [Finset.mem_filter, Finset.mem_range] at hb
    refine ⟨b, ?_, rfl⟩
    simp only [Finset.mem_filter, Finset.mem_Ico]
    have h2 := hb.2.two_le
    refine ⟨⟨by omega, hb.1⟩, ?_⟩
    rw [isPrime_iff]
    exact ⟨by omega, by simpa using hb.2⟩

/-- C5: the primality check returns true exactly on the integers `k ≥ 2` whose value
is prime (false for negatives, 0, 1 and composites), and one full pass counts exactly
the primes in `[2, primeRange)` (equivalently: the primes below `primeRange`, since
there is no prime below 2). -/
theorem isPrime_primePass_correct :
    (∀ k : Int, isPrime k = true ↔ 2 ≤ k ∧ Nat.Prime k.toNat) ∧
    (∀ r : Int, primePass r = ((Finset.range r.toNat).filter (fun p => Nat.Prime p)).card) :=
  ⟨isPrime_iff, primePass_eq⟩

/-- Concrete instances of C5: 2, 7 and 97 are accepted, -5, 0, 1, 9 and 1000 are
rejected, and the pass over `[2, 30)` finds the 10 primes below 30. -/
theorem isPrime_primePass_correct_witness :
    isPrime 2 = true ∧ isPrime 7 = true ∧ isPrime 97 = true ∧
    isPrime (-5) = false ∧ isPrime 0 = false ∧ isPrime 1 = false ∧
    isPrime 9 = false ∧ isPrime 1000 = false ∧ primePass 30 = 10 := by
  refine ⟨?_, ?_, ?_, ?_, ?_, ?_, ?_, ?_, ?_⟩
  · exact (isPrime_primePass_correct.1 2).mpr ⟨by norm_num, by decide⟩
  · exact (isPrime_primePass_correct.1 7).mpr ⟨by norm_num, by decide⟩
  · exact (isPrime_primePass_correct.1 97).mpr ⟨by norm_num, by decide⟩
  · rw [Bool.eq_false_iff]
    intro hc
    exact absurd ((isPrime_primePass_correct.1 _).mp hc) (by decide)
  · rw [Bool.eq_false_iff]
    intro hc
    exact absurd ((isPrime_primePass_correct.1 _).mp hc) (by decide)
  · rw [Bool.eq_false_iff]
    intro hc
    exact absurd ((isPrime_primePass_correct.1 _).mp hc) (by decide)
  · rw [Bool.eq_false_iff]
    intro hc
    exact absurd ((isPrime_primePass_correct.1 _).mp hc) (by decide)
  · rw [Bool.eq_false_iff]
    intro hc
    exact absurd ((isPrime_primePass_correct.1 _).mp hc) (by decide)
  · rw [isPrime_primePass_correct.2 30]
    decide

/-- The shared statistics record of aggregate (quiet) mode (src/main.go lines 30-35).
The `sync.RWMutex` is modelled by making every lock/unlock region one atomic step
(`statsStep`): no interleaving can observe a partially updated record. -/
structure CPUStats where
  totalPrimesFound : Nat
  totalTimeNs : Nat
  lastReportNs : Int
deriving Repr, DecidableEq

/-- What one CPU worker brings to the shared stats after one full pass
(src/main.go lines 147-170): the prime count and wall time of the pass, the clock
value read by `time.Since(cpuStats.lastReport)` when the report condition is
evaluated, and the clock value read by `time.Now()` when the timestamp is stamped.
Both reads happen inside the critical section, the stamp read after the check. -/
structure PassEvent where
  primeCount : Nat
  durationNs : Nat
  nowCheckNs : Int
  nowStampNs : Int
deriving Repr, DecidableEq

/-- `time.Duration.Seconds()` of `ns` nanoseconds, over ℚ. -/
def durSeconds (ns : Nat) : ℚ := (ns : ℚ) / 1000000000

/-- The aggregate-mode critical section of `benchmarkPrimality` (src/main.go lines
161-176), as one atomic step: fold the pass into the accumulators, evaluate
`time.Since(cpuStats.lastReport) >= time.Duration(reportInterval)*time.Second`,
and if it holds compute
`avgPrimesPerSec := totalPrimesFound / totalTime.Seconds()` and
`totalPrimesPerSec := avgPrimesPerSec * cpuThreads`, stamp `lastReport` with
`time.Now()` and emit the rate (the print itself happens after unlock). -/
def statsStep (reportIntervalSec : Int) (cpuThreads : Nat) (s : CPUStats) (e : PassEvent) :
    CPUStats × Option ℚ :=
  let s1 : CPUStats :=
    { s with totalTimeNs := s.totalTimeNs + e.durationNs,
             totalPrimesFound := s.totalPrimesFound + e.primeCount }
  if reportIntervalSec * 1000000000 ≤ e.nowCheckNs - s.lastReportNs then
    ({ s1 with lastReportNs := e.nowStampNs },
      some ((s1.totalPrimesFound : ℚ) / durSeconds s1.totalTimeNs * cpuThreads))
  else (s1, none)

/-- A whole aggregate-mode history: the critical sections of all workers, serialized
by the mutex, are a list of atomic `statsStep`s. Returns the final stats and the
emitted reports as (stamped timestamp, printed rate) pairs. -/
def statsRun (reportIntervalSec : Int) (cpuThreads : Nat) (s : CPUStats) :
    List PassEvent → CPUStats × List (Int × ℚ)
  | [] => (s, [])
  | e :: es =>
    match statsStep reportIntervalSec cpuThreads s e with
    | (s1, none) => statsRun reportIntervalSec cpuThreads s1 es
    | (s1, some r) =>
      let rest := statsRun reportIntervalSec cpuThreads s1 es
      (rest.1, (s1.lastReportNs, r) :: rest.2)

/-- The clock is monotone along the serialized critical sections: the state of the
clock at the start is at most the check-read of the first section, every check-read
is at most the stamp-read of the same section, and every stamp-read is at most the
check-read of the next section. -/
def timeMono : Int → List PassEvent → Bool
  | _, [] => true
  | t, e :: es =>
    decide (t ≤ e.nowCheckNs) && decide (e.nowCheckNs ≤ e.nowStampNs) && timeMono e.nowStampNs es

theorem timeMono_anti (t t2 : Int) (es : List PassEvent) (h : t ≤ t2)
    (hm : timeMono t2 es = true) : timeMono t es = true := by
  cases es with
  | nil => rfl
  | cons e es =>
    simp only [timeMono, Bool.and_eq_true, decide_eq_true_eq] at hm ⊢
    exact ⟨⟨by omega, hm.1.2⟩, hm.2⟩

theorem statsRun_totals (I : Int) (thr : Nat) (s : CPUStats) (es : List PassEvent) :
    ((statsRun I thr s es).1.totalPrimesFound
        = s.totalPrimesFound + (es.map PassEvent.primeCount).sum) ∧
    ((statsRun I thr s es).1.totalTimeNs
        = s.totalTimeNs + (es.map PassEvent.durationNs).sum) := by
  induction es generalizing s with
  | nil => simp [statsRun]
  | cons e es ih =>
    simp only [statsRun, statsStep]
    by_cases hc : I * 1000000000 ≤ e.nowCheckNs - s.lastReportNs
    · rw [if_pos hc]
      simp only [List.map_cons, List.sum_cons]
      have h2 := ih { s with totalTimeNs := s.totalTimeNs + e.durationNs,
                             totalPrimesFound := s.totalPrimesFound + e.primeCount,
                             lastReportNs := e.nowStampNs }
      constructor
      · rw [h2.1]
        simp
        omega
      · rw [h2.2]
        simp
        omega
    · rw [if_neg hc]
      simp only [List.map_cons, List.sum_cons]
      have h2 := ih { s with totalTimeNs := s.totalTimeNs + e.durationNs,
                             totalPrimesFound := s.totalPrimesFound + e.primeCount }
      constructor
      · rw [h2.1]
        simp
        omega
      · rw [h2.2]
        simp
        omega

/-- C1: in aggregate (quiet) mode, whenever a worker emits a report, the printed
rate is exactly (cumulative primes of all workers) / (cumulative CPU seconds of all
workers) × configured worker count, the cumulative values including the pass that
triggered the report. The stats start from the zeroed record created in `main`
(src/main.go line 98), so the accumulators hold exactly the sums over all passes of
all workers folded in so far. -/
theorem aggregateRate_formula (I : Int) (thr : Nat) (t0 : Int) (es : List PassEvent)
    (e : PassEvent) (r : ℚ)
    (hr : (statsStep I thr ((statsRun I thr ⟨0, 0, t0⟩ es).1) e).2 = some r) :
    r = (((es.map PassEvent.primeCount).sum + e.primeCount : Nat) : ℚ)
        / durSeconds ((es.map PassEvent.durationNs).sum + e.durationNs) * thr := by
  set s := (statsRun I thr ⟨0, 0, t0⟩ es).1 with hs
  have ht := statsRun_totals I thr ⟨0, 0, t0⟩ es
  simp only [statsStep] at hr
  by_cases hc : I * 1000000000 ≤ e.nowCheckNs - s.lastReportNs
  · rw [if_pos hc] at hr
    simp only [Option.some_inj] at hr
    rw [← hr]
    rw [← hs] at ht
    rw [ht.1, ht.2]
    norm_num
  · rw [if_neg hc] at hr
    cases hr

/-- Concrete instance of C1: one worker, interval 5 s, a single pass of 100 primes
in 2 s reported at t = 6 s with 2 configured threads prints 100/2 × 2 = 100. -/
theorem aggregateRate_formula_witness :
    (statsStep 5 2 ((statsRun 5 2 ⟨0, 0, 0⟩ []).1)
        ⟨100, 2000000000, 6000000000, 6000000001⟩).2 = some 100 ∧
    (100 : ℚ) = ((([] : List PassEvent).map PassEvent.primeCount).sum + 100 : Nat)
        / durSeconds ((([] : List PassEvent).map PassEvent.durationNs).sum + 2000000000) * 2 := by
  have hstep : (statsStep 5 2 ((statsRun 5 2 ⟨0, 0, 0⟩ []).1)
      ⟨100, 2000000000, 6000000000, 6000000001⟩).2 = some 100 := by
    norm_num [statsRun, statsStep, durSeconds]
  exact ⟨hstep,
    aggregateRate_formula 5 2 0 [] ⟨100, 2000000000, 6000000000, 6000000001⟩ 100 hstep⟩

/-- C4: across any serialized history of critical sections (with a monotone clock),
the two accumulators of the shared stats never decrease and the last-report
timestamp never moves backward. The third part of the claim - that all three
fields are read and written only under one critical section per update, so no
observer mixes fields of different updates - is the modelling of the mutex itself:
`statsRun` folds whole critical sections atomically, which is exactly the
discipline of src/main.go lines 162-176 (every access to the record sits between
`mu.Lock()` and `mu.Unlock()`). -/
theorem statsMonotone (I : Int) (thr : Nat) (s : CPUStats) (es : List PassEvent)
    (hm : timeMono s.lastReportNs es = true) :
    s.totalPrimesFound ≤ (statsRun I thr s es).1.totalPrimesFound ∧
    s.totalTimeNs ≤ (statsRun I thr s es).1.totalTimeNs ∧
    s.lastReportNs ≤ (statsRun I thr s es).1.lastReportNs := by
  induction es generalizing s with
  | nil => exact ⟨le_rfl, le_rfl, le_rfl⟩
  | cons e es ih =>
    simp only [timeMono, Bool.and_eq_true, decide_eq_true_eq] at hm
    obtain ⟨⟨hck, hcs⟩, hrest⟩ := hm
    simp only [statsRun, statsStep]
    by_cases hc : I * 1000000000 ≤ e.nowCheckNs - s.lastReportNs
    · rw [if_pos hc]
      have h2 := ih { s with totalTimeNs := s.totalTimeNs + e.durationNs,
                             totalPrimesFound := s.totalPrimesFound + e.primeCount,
                             lastReportNs := e.nowStampNs } hrest
      exact ⟨le_trans (Nat.le_add_right _ _) h2.1, le_trans (Nat.le_add_right _ _) h2.2.1,
        le_trans (le_trans hck hcs) h2.2.2⟩
    · rw [if_neg hc]
      have h2 := ih { s with totalTimeNs := s.totalTimeNs + e.durationNs,
                             totalPrimesFound := s.totalPrimesFound + e.primeCount }
        (timeMono_anti s.lastReportNs e.nowStampNs es (le_trans hck hcs) hrest)
      exact ⟨le_trans (Nat.le_add_right _ _) h2.1, le_trans (Nat.le_add_right _ _) h2.2.1, h2.2.2⟩

/-- Concrete instance of C4: two passes, the second reporting, leave all three
fields at least as large as they started. -/
theorem statsMonotone_witness :
    timeMono (5 : Int)
      [⟨3, 7, 8, 9⟩, ⟨4, 11, 2000000010, 2000000011⟩] = true ∧
    (5 : Nat) ≤ (statsRun 1 4 ⟨5, 6, 5⟩
      [⟨3, 7, 8, 9⟩, ⟨4, 11, 2000000010, 2000000011⟩]).1.totalPrimesFound ∧
    (6 : Nat) ≤ (statsRun 1 4 ⟨5, 6, 5⟩
      [⟨3, 7, 8, 9⟩, ⟨4, 11, 2000000010, 2000000011⟩]).1.totalTimeNs ∧
    (5 : Int) ≤ (statsRun 1 4 ⟨5, 6, 5⟩
      [⟨3, 7, 8, 9⟩, ⟨4, 11, 2000000010, 2000000011⟩]).1.lastReportNs :=
  ⟨by decide, statsMonotone 1 4 ⟨5, 6, 5⟩ _ (by decide)⟩

/-- `spacedFrom gap t l` holds when the elements of `l` are each at least `gap`
after the previous one, the first at least `gap` after `t`. -/
def spacedFrom (gap : Int) : Int → List Int → Bool
  | _, [] => true
  | t, τ :: rest => decide (t + gap ≤ τ) && spacedFrom gap τ rest

theorem statsRun_spaced (I : Int) (thr : Nat) (s : CPUStats) (es : List PassEvent)
    (hm : timeMono s.lastReportNs es = true) :
    spacedFrom (I * 1000000000) s.lastReportNs
      ((statsRun I thr s es).2.map Prod.fst) = true := by
  induction es generalizing s with
  | nil => rfl
  | cons e es ih =>
    simp only [timeMono, Bool.and_eq_true, decide_eq_true_eq] at hm
    obtain ⟨⟨hck, hcs⟩, hrest⟩ := hm
    simp only [statsRun, statsStep]
    by_cases hc : I * 1000000000 ≤ e.nowCheckNs - s.lastReportNs
    · rw [if_pos hc]
      simp only [List.map_cons, spacedFrom, Bool.and_eq_true, decide_eq_true_eq]
      constructor
      · omega
      · exact ih { s with totalTimeNs := s.totalTimeNs + e.durationNs,
                          totalPrimesFound := s.totalPrimesFound + e.primeCount,
                          lastReportNs := e.nowStampNs } hrest
    · rw [if_neg hc]
      exact ih { s with totalTimeNs := s.totalTimeNs + e.durationNs,
                        totalPrimesFound := s.totalPrimesFound + e.primeCount }
        (timeMono_anti s.lastReportNs e.nowStampNs es (le_trans hck hcs) hrest)

theorem spacedFrom_length (gap b : Int) (l : List Int) :
    ∀ t, spacedFrom gap t l = true → (∀ τ ∈ l, τ ≤ b) → l ≠ [] →
      t + (l.length : Int) * gap ≤ b := by
  induction l with
  | nil =>
    intro t _ _ hne
    exact absurd rfl hne
  | cons τ rest ih =>
    intro t hsp hub _
    simp only [spacedFrom, Bool.and_eq_true, decide_eq_true_eq] at hsp
    rcases List.eq_nil_or_concat rest with hnil | hcons
    · subst hnil
      have hτ : τ ≤ b := hub τ (by simp)
      simp only [List.length_cons, List.length_nil]
      push_cast
      linarith [hsp.1]
    · have hne2 : rest ≠ [] := by
        obtain ⟨l2, a, rfl⟩ := hcons
        simp
      have h2 := ih τ hsp.2 (fun x hx => hub x (by simp [hx])) hne2
      simp only [List.length_cons]
      push_cast
      push_cast at h2
      linarith [hsp.1]

/-- C2: in aggregate mode, serializing all critical sections through the mutex and
assuming a monotone clock, the number of reports emitted whose stamped timestamps
fall within `D` nanoseconds of the initial last-report timestamp is at most
`D / (interval in ns) + 1`: only the worker whose check of the interval condition
was still true at the moment it held the lock emits, and it advances the timestamp
inside that same critical section, so emitted stamps are at least one interval
apart and the count is independent of the worker count. -/
theorem aggregateReport_bound (I : Int) (thr : Nat) (D : Int) (s : CPUStats)
    (es : List PassEvent) (hI : 0 < I) (hD : 0 ≤ D)
    (hm : timeMono s.lastReportNs es = true)
    (hwin : ∀ τ ∈ (statsRun I thr s es).2.map Prod.fst, τ ≤ s.lastReportNs + D) :
    ((statsRun I thr s es).2.length : Int) ≤ D / (I * 1000000000) + 1 := by
  have hgap : 0 < I * 1000000000 := by positivity
  have hsp := statsRun_spaced I thr s es hm
  set l := (statsRun I thr s es).2.map Prod.fst with hl
  have hlen : (statsRun I thr s es).2.length = l.length := by
    rw [hl, List.length_map]
  rw [hlen]
  by_cases hne : l = []
  · rw [hne]
    simp only [List.length_nil, Nat.cast_zero]
    have hnn : 0 ≤ D / (I * 1000000000) := Int.ediv_nonneg hD (by omega)
    omega
  · have hb := spacedFrom_length (I * 1000000000) (s.lastReportNs + D) l
      s.lastReportNs hsp hwin hne
    have hmul : (l.length : Int) * (I * 1000000000) ≤ D := by linarith
    have hdiv : (l.length : Int) ≤ D / (I * 1000000000) :=
      (Int.le_ediv_iff_mul_le hgap).mpr hmul
    omega

/-- Concrete instance of C2: interval 1 s, two serialized sections of which one
reports, stamps within a 2 s window: 1 report ≤ 2/1 + 1. -/
theorem aggregateReport_bound_witness :
    (0 : Int) < 1 ∧ (0 : Int) ≤ 2000000000 ∧
    timeMono (0 : Int) [⟨1, 1, 400000000, 500000000⟩, ⟨2, 3, 1100000000, 1200000000⟩] = true ∧
    (∀ τ ∈ (statsRun 1 3 ⟨0, 0, 0⟩
        [⟨1, 1, 400000000, 500000000⟩, ⟨2, 3, 1100000000, 1200000000⟩]).2.map Prod.fst,
      τ ≤ (0 : Int) + 2000000000) ∧
    ((statsRun 1 3 ⟨0, 0, 0⟩
        [⟨1, 1, 400000000, 500000000⟩, ⟨2, 3, 1100000000, 1200000000⟩]).2.length : Int)
      ≤ 2000000000 / (1 * 1000000000) + 1 :=
  ⟨by decide, by decide, by decide, by decide,
    aggregateReport_bound 1 3 2000000000 ⟨0, 0, 0⟩ _ (by decide) (by decide) (by decide) (by decide)⟩

/-- The fill of one freshly allocated chunk (src/main.go lines 233-237):
`chunk := make([]byte, chunkSize); for i := range chunk { chunk[i] = byte(i % 256) }`.
`byte(i % 256)` never truncates since `i % 256 < 256`. -/
def mkChunk (chunkSize : Nat) : List Nat :=
  (List.range chunkSize).map (fun i => i % 256)

theorem mkChunk_length (n : Nat) : (mkChunk n).length = n := by
  simp [mkChunk]

theorem mkChunk_getD (n i : Nat) (h : i < n) : (mkChunk n).getD i 0 = i % 256 := by
  rw [mkChunk, List.getD_eq_getElem?_getD, List.getElem?_map, List.getElem?_range h]
  rfl

/-- C8 counterexample: with the default 100 MB chunk size, the very first byte the
fill writes is `byte(0 % 256) = 0`, so the chunk does contain zero bytes coming
from the fill - the fill is deterministic but not zero-free. -/
theorem mkChunk_zero_byte_cex : (mkChunk (100 * 1024 * 1024)).head? = some 0 := by
  rw [mkChunk, show (100 * 1024 * 1024 : Nat) = 104857599 + 1 from rfl,
    List.range_succ_eq_map]
  rfl

/-- C8 amended: each chunk is filled with the deterministic pattern `i % 256`
(so content does not depend on anything but the index), and although bytes at
indices that are multiples of 256 are zero, every chunk of at least 2 bytes has a
nonzero byte (index 1 holds 1), hence no chunk of the configured sizes (≥ 1 MB) is
an all-zero page. -/
theorem mkChunk_deterministic_not_all_zero (n : Nat) (hn : 2 ≤ n) :
    (mkChunk n).length = n ∧
    (∀ i, i < n → (mkChunk n).getD i 0 = i % 256) ∧
    (mkChunk n).getD 1 0 = 1 := by
  refine ⟨mkChunk_length n, fun i hi => mkChunk_getD n i hi, ?_⟩
  rw [mkChunk_getD n 1 (by omega)]

/-- Concrete instance of amended C8 at chunk size 2. -/
theorem mkChunk_deterministic_not_all_zero_witness :
    (mkChunk 2).length = 2 ∧
    (∀ i, i < 2 → (mkChunk 2).getD i 0 = i % 256) ∧
    (mkChunk 2).getD 1 0 = 1 :=
  mkChunk_deterministic_not_all_zero 2 (by decide)

/-- State of the allocation loop of `memoryAndFilesystemBenchmark`
(src/main.go lines 220-241): the length of `memoryChunks` (every appended element
is `mkChunk chunkSize.toNat`), the `allocated` byte counter, and the number of
`select` polls done so far on the stop channel. -/
structure GrowSt where
  count : Nat
  allocated : Int
  polls : Nat
deriving Repr, DecidableEq

/-- How the allocation loop ended: by observing the stop channel (the `return` at
src/main.go line 231) or by reaching `allocated >= targetMemory`. -/
inductive GrowResult
  | cancelled (st : GrowSt)
  | done (st : GrowSt)
deriving Repr, DecidableEq

/-- The allocation loop (src/main.go lines 225-241):
`for allocated < targetMemory { select stop -> return; default: append chunk;
allocated += chunkSize } }`. Fuel makes the function total (with
`chunkSize ≤ 0` and a never-firing stop signal the Go loop does not terminate);
`none` means the fuel ran out with the loop still running. -/
def memGrowLoop (chunkSize target : Int) (stopAfter : Nat) : Nat → GrowSt → Option GrowResult
  | 0, st => if st.allocated < target then none else some (.done st)
  | fuel + 1, st =>
    if st.allocated < target then
      if stopAfter ≤ st.polls then some (.cancelled st)
      else memGrowLoop chunkSize target stopAfter fuel
        ⟨st.count + 1, st.allocated + chunkSize, st.polls + 1⟩
    else some (.done st)

/-- Target computation (src/main.go line 215):
`targetMemory := int64(float64(getAvailableMemory(config)) * config.memoryPercent)`.
The float64 product is modelled exactly over ℚ; the `int64` conversion truncates
toward zero, which on the nonnegative values arising here is the floor. -/
def memTarget (avail : Int) (memoryPercent : ℚ) : Int :=
  ⌊(avail : ℚ) * memoryPercent⌋

theorem memGrowLoop_done_of_reached (chunkSize target : Int) (stopAfter fuel : Nat)
    (st : GrowSt) (h : ¬ st.allocated < target) :
    memGrowLoop chunkSize target stopAfter fuel st = some (.done st) := by
  cases fuel with
  | zero => simp only [memGrowLoop, if_neg h]
  | succ fuel => simp only [memGrowLoop, if_neg h]

theorem memGrowLoop_invariant (chunkSize target : Int) (stopAfter fuel : Nat)
    (st : GrowSt) (res : GrowResult)
    (hrun : memGrowLoop chunkSize target stopAfter fuel st = some res)
    (hinv : st.allocated = st.count * chunkSize ∧ st.count = st.polls) :
    (∀ st2, res = .cancelled st2 →
        st2.allocated = st2.count * chunkSize ∧ st2.count = st2.polls ∧
        stopAfter ≤ st2.polls ∧ st2.allocated < target ∧
        (st.polls ≤ stopAfter → st2.polls = stopAfter)) ∧
    (∀ st2, res = .done st2 →
        st2.allocated = st2.count * chunkSize ∧ st2.count = st2.polls ∧
        target ≤ st2.allocated ∧
        (st.allocated < target → target + chunkSize > st2.allocated)) := by
  induction fuel generalizing st with
  | zero =>
    simp only [memGrowLoop] at hrun
    by_cases h : st.allocated < target
    · rw [if_pos h] at hrun
      cases hrun
    · rw [if_neg h] at hrun
      simp only [Option.some_inj] at hrun
      subst hrun
      constructor
      · intro st2 habs
        cases habs
      · intro st2 heq
        cases heq
        exact ⟨hinv.1, hinv.2, by omega, by omega⟩
  | succ fuel ih =>
    simp only [memGrowLoop] at hrun
    by_cases h : st.allocated < target
    · rw [if_pos h] at hrun
      by_cases hstop : stopAfter ≤ st.polls
      · rw [if_pos hstop] at hrun
        simp only [Option.some_inj] at hrun
        subst hrun
        constructor
        · intro st2 heq
          cases heq
          exact ⟨hinv.1, hinv.2, hstop, h, by omega⟩
        · intro st2 habs
          cases habs
      · rw [if_neg hstop] at hrun
        have h2 := ih ⟨st.count + 1, st.allocated + chunkSize, st.polls + 1⟩ hrun
          ⟨by simp only; rw [hinv.1]; push_cast; ring, by simp [hinv.2]⟩
        constructor
        · intro st2 heq
          obtain ⟨ha, hb, hc, hd, he⟩ := h2.1 st2 heq
          exact ⟨ha, hb, hc, hd, fun _ => he (by simp only; omega)⟩
        · intro st2 heq
          obtain ⟨ha, hb, hc, hd⟩ := h2.2 st2 heq
          refine ⟨ha, hb, hc, fun _ => ?_⟩
          by_cases h3 : st.allocated + chunkSize < target
          · exact hd h3
          · have hstop2 := memGrowLoop_done_of_reached chunkSize target stopAfter fuel
              ⟨st.count + 1, st.allocated + chunkSize, st.polls + 1⟩ h3
            rw [hstop2] at hrun
            simp only [Option.some_inj] at hrun
            rw [← hrun] at heq
            cases heq
            simp only
            omega
    · rw [if_neg h] at hrun
      simp only [Option.some_inj] at hrun
      subst hrun
      constructor
      · intro st2 habs
        cases habs
      · intro st2 heq
        cases heq
        exact ⟨hinv.1, hinv.2, by omega, by omega⟩

/-- Observable events of `filesystemBenchmark` (src/main.go lines 392-524): log
lines, successful file operations we need to track, and the two deferred cleanup
actions (`tempFile.Close()` and `os.Remove(name)`). -/
inductive DiskEv
  | emptyDiag
  | createErrLog
  | seekErrLog
  | truncErrLog
  | chunkWrite (i : Nat)
  | chunkWriteErrLog (i : Nat)
  | syncErrLog
  | readOk
  | readErrLog
  | report
  | closeFile
  | removeFile
deriving Repr, DecidableEq

/-- Why `filesystemBenchmark` returned (or, for `fuelOut`, that the modelled
observation window ended with the Go loop still running). -/
inductive DiskExit
  | emptyChunks
  | createFailed
  | stopped
  | randErr
  | seekWriteErr
  | truncateErr
  | syncErr
  | seekReadErr
  | fuelOut
deriving Repr, DecidableEq

/-- Consumable outcome streams for the file-system calls of the disk loop, plus
the stop-channel poll counter. Each call consumes the head of its stream; an
exhausted stream means the call succeeds (and a read hits end-of-file). For
`readOuts`, an entry `(n, fatal)` is a `tempFile.Read` returning `n` bytes,
with `fatal` meaning a non-nil error whose text is not EOF. -/
structure DiskSt where
  seekOuts : List Bool
  truncOuts : List Bool
  randOuts : List Bool
  writeOuts : List Bool
  syncOuts : List Bool
  readOuts : List (Nat × Bool)
  timeTrigs : List Bool
  stopAfter : Nat
  polls : Nat
deriving Repr, DecidableEq

/-- Consume the head of an outcome stream; an empty stream yields success. -/
def takeB : List Bool → Bool × List Bool
  | [] => (true, [])
  | b :: r => (b, r)

/-- Consume the head of the interval-clock stream; an exhausted stream means the
report interval has not elapsed. -/
def takeTrig : List Bool → Bool × List Bool
  | [] => (false, [])
  | b :: r => (b, r)

/-- Write phase of one disk iteration (src/main.go lines 453-471): for each chunk,
poll the stop channel (`return` if closed), refill the chunk from `crypto/rand`
(`return` on error, without logging), then `tempFile.Write`. A write error is
logged, but the `break` at line 467 only leaves the `select` statement, not the
range loop, so the loop continues with the next chunk. -/
def writePhase (i remaining : Nat) (st : DiskSt) : DiskSt × List DiskEv × Option DiskExit :=
  match remaining with
  | 0 => (st, [], none)
  | rem + 1 =>
    if st.stopAfter ≤ st.polls then (st, [], some .stopped)
    else
      let st1 := { st with polls := st.polls + 1 }
      let rr := takeB st1.randOuts
      let st2 := { st1 with randOuts := rr.2 }
      if rr.1 = false then (st2, [], some .randErr)
      else
        let ww := takeB st2.writeOuts
        let st3 := { st2 with writeOuts := ww.2 }
        let r := writePhase (i + 1) rem st3
        if ww.1 = true then (r.1, .chunkWrite i :: r.2.1, r.2.2)
        else (r.1, .chunkWriteErrLog i :: r.2.1, r.2.2)

/-- Read phase of one disk iteration (src/main.go lines 493-509), recursing over
the stream of read outcomes: poll the stop channel (`break readLoop` if closed),
`tempFile.Read`; `n == 0` breaks the read loop, a non-EOF error is logged and
breaks the read loop, otherwise continue. Breaking the read loop never returns
from the function. An exhausted stream reads as end-of-file. -/
def readPhaseAux (stopAfter : Nat) :
    List (Nat × Bool) → Nat → List (Nat × Bool) × Nat × List DiskEv
  | [], polls =>
    if stopAfter ≤ polls then ([], polls, []) else ([], polls + 1, [])
  | (n, fatal) :: rest, polls =>
    if stopAfter ≤ polls then ((n, fatal) :: rest, polls, [])
    else if n = 0 then (rest, polls + 1, [])
    else if fatal = true then (rest, polls + 1, [.readErrLog])
    else
      let r := readPhaseAux stopAfter rest (polls + 1)
      (r.1, r.2.1, .readOk :: r.2.2)

/-- The read phase acting on the consumption state. -/
def readPhase (st : DiskSt) : DiskSt × List DiskEv :=
  let r := readPhaseAux st.stopAfter st.readOuts st.polls
  ({ st with readOuts := r.1, polls := r.2.1 }, r.2.2)

/-- One iteration of the disk loop (src/main.go lines 428-522): top-of-loop stop
poll, seek to 0, truncate, write phase, sync, seek to 0, read phase, then report
when the interval clock fired or the iteration count is a multiple of 5. Seek,
truncate and sync errors are logged and return; `iteration` is the value after
the `iteration++` at line 436. -/
def diskIter (numChunks iteration : Nat) (st : DiskSt) : DiskSt × List DiskEv × Option DiskExit :=
  if st.stopAfter ≤ st.polls then (st, [], some .stopped)
  else
    let st1 := { st with polls := st.polls + 1 }
    let sk := takeB st1.seekOuts
    let st2 := { st1 with seekOuts := sk.2 }
    if sk.1 = false then (st2, [.seekErrLog], some .seekWriteErr)
    else
      let tc := takeB st2.truncOuts
      let st3 := { st2 with truncOuts := tc.2 }
      if tc.1 = false then (st3, [.truncErrLog], some .truncateErr)
      else
        let w := writePhase 0 numChunks st3
        match w.2.2 with
        | some e => (w.1, w.2.1, some e)
        | none =>
          let sy := takeB w.1.syncOuts
          let st4 := { w.1 with syncOuts := sy.2 }
          if sy.1 = false then (st4, w.2.1 ++ [.syncErrLog], some .syncErr)
          else
            let sk2 := takeB st4.seekOuts
            let st5 := { st4 with seekOuts := sk2.2 }
            if sk2.1 = false then (st5, w.2.1 ++ [.seekErrLog], some .seekReadErr)
            else
              let r := readPhase st5
              let tt := takeTrig r.1.timeTrigs
              let st6 := { r.1 with timeTrigs := tt.2 }
              if tt.1 = true ∨ iteration % 5 = 0 then
                (st6, w.2.1 ++ r.2 ++ [.report], none)
              else (st6, w.2.1 ++ r.2, none)

/-- The unbounded disk loop (src/main.go lines 428-523), truncated by fuel: an
exit of `.fuelOut` means the observation window closed with the loop still
running, any other exit is an actual `return` of the Go function. -/
def diskLoop (numChunks : Nat) : Nat → Nat → DiskSt → List DiskEv × DiskExit
  | 0, _, _ => ([], .fuelOut)
  | fuel + 1, iteration, st =>
    match diskIter numChunks (iteration + 1) st with
    | (st1, evs, some e) => (evs, e)
    | (st1, evs, none) =>
      let r := diskLoop numChunks fuel (iteration + 1) st1
      (evs ++ r.1, r.2)

/-- Environment of one `filesystemBenchmark` run: the chunk count handed over by
the allocator, whether `os.CreateTemp` succeeds, the outcome streams and the stop
signal timing. -/
structure DiskEnv where
  numChunks : Nat
  createOk : Bool
  seekOuts : List Bool
  truncOuts : List Bool
  randOuts : List Bool
  writeOuts : List Bool
  syncOuts : List Bool
  readOuts : List (Nat × Bool)
  timeTrigs : List Bool
  stopAfter : Nat
deriving Repr, DecidableEq

/-- Initial consumption state of a run. -/
def DiskEnv.initSt (env : DiskEnv) : DiskSt :=
  ⟨env.seekOuts, env.truncOuts, env.randOuts, env.writeOuts, env.syncOuts,
   env.readOuts, env.timeTrigs, env.stopAfter, 0⟩

/-- `filesystemBenchmark` (src/main.go lines 392-524): empty chunk set diagnostic,
temp-file creation, the loop, and - on every actual return after a successful
creation - the two deferred actions, which Go runs in LIFO order: the
`tempFile.Close()` registered second runs first, then the `os.Remove` registered
first (lines 409-421). -/
def filesystemBenchmark (env : DiskEnv) (fuel : Nat) : List DiskEv × DiskExit :=
  if env.numChunks = 0 then ([.emptyDiag], .emptyChunks)
  else if env.createOk = false then ([.createErrLog], .createFailed)
  else
    match diskLoop env.numChunks fuel 0 env.initSt with
    | (evs, .fuelOut) => (evs, .fuelOut)
    | (evs, ex) => (evs ++ [.closeFile, .removeFile], ex)

/-- The log line that a fatal file-system error prints just before the disk loop
returns. -/
def fatalLog : DiskExit → Option DiskEv
  | .syncErr => some .syncErrLog
  | .truncateErr => some .truncErrLog
  | .seekWriteErr => some .seekErrLog
  | .seekReadErr => some .seekErrLog
  | _ => none

theorem writePhase_exit (rem : Nat) : ∀ (i : Nat) (st : DiskSt) (e : DiskExit),
    (writePhase i rem st).2.2 = some e → e = .stopped ∨ e = .randErr := by
  induction rem with
  | zero =>
    intro i st e h
    simp only [writePhase] at h
    cases h
  | succ rem ih =>
    intro i st e h
    simp only [writePhase] at h
    by_cases h1 : st.stopAfter ≤ st.polls
    · rw [if_pos h1] at h
      simp only [Option.some_inj] at h
      exact Or.inl h.symm
    · rw [if_neg h1] at h
      by_cases h2 : (takeB st.randOuts).1 = false
      · rw [if_pos h2] at h
        simp only [Option.some_inj] at h
        exact Or.inr h.symm
      · rw [if_neg h2] at h
        by_cases h3 : (takeB st.writeOuts).1 = true
        · rw [if_pos h3] at h
          exact ih (i + 1) _ e h
        · rw [if_neg h3] at h
          exact ih (i + 1) _ e h

theorem writePhase_events (rem : Nat) : ∀ (i : Nat) (st : DiskSt) (ev : DiskEv),
    ev ∈ (writePhase i rem st).2.1 → ∃ j, ev = .chunkWrite j ∨ ev = .chunkWriteErrLog j := by
  induction rem with
  | zero =>
    intro i st ev h
    simp only [writePhase, List.not_mem_nil] at h
  | succ rem ih =>
    intro i st ev h
    simp only [writePhase] at h
    by_cases h1 : st.stopAfter ≤ st.polls
    · rw [if_pos h1] at h
      simp at h
    · rw [if_neg h1] at h
      by_cases h2 : (takeB st.randOuts).1 = false
      · rw [if_pos h2] at h
        simp at h
      · rw [if_neg h2] at h
        by_cases h3 : (takeB st.writeOuts).1 = true
        · rw [if_pos h3] at h
          simp only [List.mem_cons] at h
          rcases h with h | h
          · exact ⟨i, Or.inl h⟩
          · exact ih (i + 1) _ ev h
        · rw [if_neg h3] at h
          simp only [List.mem_cons] at h
          rcases h with h | h
          · exact ⟨i, Or.inr h⟩
          · exact ih (i + 1) _ ev h

theorem writePhase_all_chunks (rem : Nat) : ∀ (i : Nat) (st : DiskSt),
    (writePhase i rem st).2.2 = none → (writePhase i rem st).2.1.length = rem := by
  induction rem with
  | zero =>
    intro i st _
    simp [writePhase]
  | succ rem ih =>
    intro i st h
    simp only [writePhase] at h ⊢
    by_cases h1 : st.stopAfter ≤ st.polls
    · rw [if_pos h1] at h
      cases h
    · rw [if_neg h1] at h ⊢
      by_cases h2 : (takeB st.randOuts).1 = false
      · rw [if_pos h2] at h
        cases h
      · rw [if_neg h2] at h ⊢
        by_cases h3 : (takeB st.writeOuts).1 = true
        · rw [if_pos h3] at h ⊢
          simp only [List.length_cons]
          rw [ih (i + 1) _ h]
        · rw [if_neg h3] at h ⊢
          simp only [List.length_cons]
          rw [ih (i + 1) _ h]

theorem readPhaseAux_events (stopAfter : Nat) (outs : List (Nat × Bool)) :
    ∀ (polls : Nat) (ev : DiskEv),
      ev ∈ (readPhaseAux stopAfter outs polls).2.2 → ev = .readOk ∨ ev = .readErrLog := by
  induction outs with
  | nil =>
    intro polls ev h
    simp only [readPhaseAux] at h
    split at h <;> simp at h
  | cons p rest ih =>
    obtain ⟨n, fatal⟩ := p
    intro polls ev h
    simp only [readPhaseAux] at h
    by_cases h1 : stopAfter ≤ polls
    · rw [if_pos h1] at h
      simp at h
    · rw [if_neg h1] at h
      by_cases h2 : n = 0
      · rw [if_pos h2] at h
        simp at h
      · rw [if_neg h2] at h
        by_cases h3 : fatal = true
        · rw [if_pos h3] at h
          simp only [List.mem_singleton] at h
          exact Or.inr h
        · rw [if_neg h3] at h
          simp only [List.mem_cons] at h
          rcases h with h | h
          · exact Or.inl h
          · exact ih (polls + 1) ev h

theorem readPhase_events (st : DiskSt) : ∀ (ev : DiskEv),
    ev ∈ (readPhase st).2 → ev = .readOk ∨ ev = .readErrLog := by
  intro ev h
  exact readPhaseAux_events st.stopAfter st.readOuts st.polls ev h

theorem writePhase_not_mem (rem i : Nat) (st : DiskSt) (ev : DiskEv)
    (hev : ∀ j, ¬ (ev = .chunkWrite j ∨ ev = .chunkWriteErrLog j)) :
    ev ∉ (writePhase i rem st).2.1 := by
  intro hmem
  obtain ⟨j, hj⟩ := writePhase_events rem i st ev hmem
  exact hev j hj

theorem wp_not_mem_misc (rem i : Nat) (st : DiskSt) :
    DiskEv.emptyDiag ∉ (writePhase i rem st).2.1 ∧
    DiskEv.closeFile ∉ (writePhase i rem st).2.1 ∧
    DiskEv.removeFile ∉ (writePhase i rem st).2.1 ∧
    DiskEv.readErrLog ∉ (writePhase i rem st).2.1 := by
  refine ⟨?_, ?_, ?_, ?_⟩ <;>
    exact writePhase_not_mem rem i st _ (by intro j hj; rcases hj with hj | hj <;> simp at hj)

theorem rp_not_mem_misc (st : DiskSt) :
    DiskEv.emptyDiag ∉ (readPhase st).2 ∧
    DiskEv.closeFile ∉ (readPhase st).2 ∧
    DiskEv.removeFile ∉ (readPhase st).2 := by
  refine ⟨?_, ?_, ?_⟩ <;>
    · intro hmem
      rcases readPhase_events st _ hmem with h | h <;> simp at h

theorem diskIter_spec (n k : Nat) (st stf : DiskSt) (evs : List DiskEv)
    (ctl : Option DiskExit)
    (hd : diskIter n k st = (stf, evs, ctl)) :
    (∀ ex lv, ctl = some ex → fatalLog ex = some lv → ∃ pre, evs = pre ++ [lv]) ∧
    DiskEv.emptyDiag ∉ evs ∧ DiskEv.closeFile ∉ evs ∧ DiskEv.removeFile ∉ evs ∧
    (DiskEv.readErrLog ∈ evs → ctl = none) := by
  simp only [diskIter] at hd
  split at hd
  · -- top-of-loop stop poll: no events, exit stopped
    cases hd
    refine ⟨?_, by simp, by simp, by simp, by simp⟩
    intro ex lv hex hlv
    injection hex with hex2
    subst hex2
    simp [fatalLog] at hlv
  · split at hd
    · -- write-side seek error: single log, immediate return
      cases hd
      refine ⟨?_, by simp, by simp, by simp, by simp⟩
      intro ex lv hex hlv
      injection hex with hex2
      subst hex2
      simp only [fatalLog, Option.some_inj] at hlv
      exact ⟨[], by rw [← hlv]; rfl⟩
    · split at hd
      · -- truncate error: single log, immediate return
        cases hd
        refine ⟨?_, by simp, by simp, by simp, by simp⟩
        intro ex lv hex hlv
        injection hex with hex2
        subst hex2
        simp only [fatalLog, Option.some_inj] at hlv
        exact ⟨[], by rw [← hlv]; rfl⟩
      · split at hd
        · -- the write phase returned early: a stop or a rand error, never a log
          rename_i e heq
          cases hd
          have hcase := writePhase_exit n 0 _ e heq
          obtain ⟨hw1, hw2, hw3, hw4⟩ := wp_not_mem_misc n 0 _
          refine ⟨?_, hw1, hw2, hw3, fun hmem => absurd hmem hw4⟩
          intro ex lv hex hlv
          injection hex with hex2
          subst hex2
          rcases hcase with hc | hc <;> (subst hc; simp [fatalLog] at hlv)
        · rename_i heq
          split at hd
          · -- sync error: the write events, then the log, immediate return
            cases hd
            obtain ⟨hw1, hw2, hw3, hw4⟩ := wp_not_mem_misc n 0 _
            refine ⟨?_, ?_, ?_, ?_, ?_⟩
            · intro ex lv hex hlv
              injection hex with hex2
              subst hex2
              simp only [fatalLog, Option.some_inj] at hlv
              exact ⟨_, by rw [← hlv]⟩
            · intro hmem
              rcases List.mem_append.mp hmem with hmem | hmem
              · exact hw1 hmem
              · simp at hmem
            · intro hmem
              rcases List.mem_append.mp hmem with hmem | hmem
              · exact hw2 hmem
              · simp at hmem
            · intro hmem
              rcases List.mem_append.mp hmem with hmem | hmem
              · exact hw3 hmem
              · simp at hmem
            · intro hmem
              rcases List.mem_append.mp hmem with hmem | hmem
              · exact absurd hmem hw4
              · simp at hmem
          · split at hd
            · -- read-side seek error: the write events, then the log, return
              cases hd
              obtain ⟨hw1, hw2, hw3, hw4⟩ := wp_not_mem_misc n 0 _
              refine ⟨?_, ?_, ?_, ?_, ?_⟩
              · intro ex lv hex hlv
                injection hex with hex2
                subst hex2
                simp only [fatalLog, Option.some_inj] at hlv
                exact ⟨_, by rw [← hlv]⟩
              · intro hmem
                rcases List.mem_append.mp hmem with hmem | hmem
                · exact hw1 hmem
                · simp at hmem
              · intro hmem
                rcases List.mem_append.mp hmem with hmem | hmem
                · exact hw2 hmem
                · simp at hmem
              · intro hmem
                rcases List.mem_append.mp hmem with hmem | hmem
                · exact hw3 hmem
                · simp at hmem
              · intro hmem
                rcases List.mem_append.mp hmem with hmem | hmem
                · exact absurd hmem hw4
                · simp at hmem
            · -- full iteration: write phase, read phase, maybe a report; ctl none
              obtain ⟨hw1, hw2, hw3, _⟩ := wp_not_mem_misc n 0 _
              split at hd
              · cases hd
                obtain ⟨hr1, hr2, hr3⟩ := rp_not_mem_misc _
                refine ⟨?_, ?_, ?_, ?_, fun _ => rfl⟩
                · intro ex lv hex hlv
                  cases hex
                · intro hmem
                  rcases List.mem_append.mp hmem with hmem | hmem
                  · rcases List.mem_append.mp hmem with hmem | hmem
                    · exact hw1 hmem
                    · exact hr1 hmem
                  · simp at hmem
                · intro hmem
                  rcases List.mem_append.mp hmem with hmem | hmem
                  · rcases List.mem_append.mp hmem with hmem | hmem
                    · exact hw2 hmem
                    · exact hr2 hmem
                  · simp at hmem
                · intro hmem
                  rcases List.mem_append.mp hmem with hmem | hmem
                  · rcases List.mem_append.mp hmem with hmem | hmem
                    · exact hw3 hmem
                    · exact hr3 hmem
                  · simp at hmem
              · cases hd
                obtain ⟨hr1, hr2, hr3⟩ := rp_not_mem_misc _
                refine ⟨?_, ?_, ?_, ?_, fun _ => rfl⟩
                · intro ex lv hex hlv
                  cases hex
                · intro hmem
                  rcases List.mem_append.mp hmem with hmem | hmem
                  · exact hw1 hmem
                  · exact hr1 hmem
                · intro hmem
                  rcases List.mem_append.mp hmem with hmem | hmem
                  · exact hw2 hmem
                  · exact hr2 hmem
                · intro hmem
                  rcases List.mem_append.mp hmem with hmem | hmem
                  · exact hw3 hmem
                  · exact hr3 hmem

theorem diskLoop_spec (n fuel : Nat) : ∀ (k : Nat) (st : DiskSt) (evs : List DiskEv)
    (ex : DiskExit), diskLoop n fuel k st = (evs, ex) →
    (∀ lv, fatalLog ex = some lv → ∃ pre, evs = pre ++ [lv]) ∧
    DiskEv.emptyDiag ∉ evs ∧ DiskEv.closeFile ∉ evs ∧ DiskEv.removeFile ∉ evs := by
  induction fuel with
  | zero =>
    intro k st evs ex hd
    simp only [diskLoop] at hd
    cases hd
    exact ⟨fun lv hlv => by simp [fatalLog] at hlv, by simp, by simp, by simp⟩
  | succ fuel ih =>
    intro k st evs ex hd
    simp only [diskLoop] at hd
    split at hd
    · -- the iteration returned
      rename_i heq
      cases hd
      obtain ⟨hf, h1, h2, h3, _⟩ := diskIter_spec n (k + 1) st _ _ _ heq
      exact ⟨fun lv hlv => hf _ lv rfl hlv, h1, h2, h3⟩
    · -- the iteration completed; the loop continues
      rename_i st1 evs1 heq
      cases hd
      obtain ⟨_, h1, h2, h3, _⟩ := diskIter_spec n (k + 1) st _ _ _ heq
      rcases hr : diskLoop n fuel (k + 1) st1 with ⟨revs, rex⟩
      obtain ⟨ihf, ih1, ih2, ih3⟩ := ih (k + 1) st1 revs rex hr
      refine ⟨?_, ?_, ?_, ?_⟩
      · intro lv hlv
        obtain ⟨pre, hpre⟩ := ihf lv hlv
        exact ⟨evs1 ++ pre, by simp [hpre]⟩
      · intro hmem
        rcases List.mem_append.mp hmem with hmem | hmem
        · exact h1 hmem
        · exact ih1 hmem
      · intro hmem
        rcases List.mem_append.mp hmem with hmem | hmem
        · exact h2 hmem
        · exact ih2 hmem
      · intro hmem
        rcases List.mem_append.mp hmem with hmem | hmem
        · exact h3 hmem
        · exact ih3 hmem

theorem filesystemBenchmark_no_emptyDiag (env : DiskEnv) (fuel : Nat)
    (hne : env.numChunks ≠ 0) :
    DiskEv.emptyDiag ∉ (filesystemBenchmark env fuel).1 := by
  unfold filesystemBenchmark
  rw [if_neg hne]
  by_cases hcr : env.createOk = false
  · rw [if_pos hcr]
    simp
  · rw [if_neg hcr]
    rcases hd : diskLoop env.numChunks fuel 0 env.initSt with ⟨evs, ex⟩
    obtain ⟨_, h1, _, _⟩ := diskLoop_spec env.numChunks fuel 0 env.initSt evs ex hd
    cases ex <;>
      simp_all [List.mem_append]

/-- C7: once the scratch file has been created (non-empty chunk set and a
successful `os.CreateTemp`), every actual exit of the loop - stop, or any error
return - runs the two deferred actions: the file handle is closed and the backing
file removed, in that order, as the last two observable events. (`fuelOut` is no
exit of the Go loop, only the end of the modelled observation window.) -/
theorem filesystem_scratch_cleanup (env : DiskEnv) (fuel : Nat)
    (hne : env.numChunks ≠ 0) (hcr : env.createOk = true)
    (hfin : (filesystemBenchmark env fuel).2 ≠ .fuelOut) :
    ∃ pre, (filesystemBenchmark env fuel).1 = pre ++ [.closeFile, .removeFile] := by
  unfold filesystemBenchmark at hfin ⊢
  rw [if_neg hne, if_neg (by simp [hcr])] at hfin ⊢
  rcases hd : diskLoop env.numChunks fuel 0 env.initSt with ⟨evs, ex⟩
  cases ex
  case fuelOut =>
    rw [hd] at hfin
    simp at hfin
  all_goals exact ⟨evs, rfl⟩

/-- Concrete instance of C7: one chunk, stop signal already set - the loop exits
at once and the trace is exactly closing then removing the scratch file. -/
theorem filesystem_scratch_cleanup_witness :
    (⟨1, true, [], [], [], [], [], [], [], 0⟩ : DiskEnv).numChunks ≠ 0 ∧
    (filesystemBenchmark ⟨1, true, [], [], [], [], [], [], [], 0⟩ 3).2 ≠ .fuelOut ∧
    ∃ pre, (filesystemBenchmark ⟨1, true, [], [], [], [], [], [], [], 0⟩ 3).1
      = pre ++ [.closeFile, .removeFile] :=
  ⟨by decide, by decide,
    filesystem_scratch_cleanup ⟨1, true, [], [], [], [], [], [], [], 0⟩ 3
      (by decide) (by decide) (by decide)⟩

/-- C3 counterexample: two concrete runs. In the first, the write of chunk 0
fails and is logged, yet the loop goes on to write chunk 1 (the `break` at
src/main.go line 467 leaves the `select`, not the range loop) and only exits
later because of the stop signal. In the second, a non-EOF read error is logged,
yet a further whole iteration (another chunk write) runs afterwards. So a
write or read error is not fatal to the loop and does not make it return
immediately, contrary to the claim. -/
theorem disk_error_not_fatal_cex :
    filesystemBenchmark ⟨2, true, [], [], [], [false, true], [], [], [], 4⟩ 2
      = ([.chunkWriteErrLog 0, .chunkWrite 1, .closeFile, .removeFile], .stopped) ∧
    filesystemBenchmark ⟨1, true, [], [], [], [], [], [(7, true)], [], 6⟩ 3
      = ([.chunkWrite 0, .readErrLog, .chunkWrite 0, .closeFile, .removeFile], .stopped) := by
  constructor <;> decide

theorem filesystemBenchmark_fatal (env : DiskEnv) (fuel : Nat) (ex : DiskExit) (lv : DiskEv)
    (hex : (filesystemBenchmark env fuel).2 = ex) (hlog : fatalLog ex = some lv) :
    ∃ pre, (filesystemBenchmark env fuel).1 = pre ++ [lv, .closeFile, .removeFile] := by
  unfold filesystemBenchmark at hex ⊢
  by_cases hne : env.numChunks = 0
  · rw [if_pos hne] at hex ⊢
    simp only at hex
    rw [← hex] at hlog
    simp [fatalLog] at hlog
  · rw [if_neg hne] at hex ⊢
    by_cases hcr : env.createOk = false
    · rw [if_pos hcr] at hex ⊢
      simp only at hex
      rw [← hex] at hlog
      simp [fatalLog] at hlog
    · rw [if_neg hcr] at hex ⊢
      rcases hd : diskLoop env.numChunks fuel 0 env.initSt with ⟨evs, lex⟩
      rw [hd] at hex
      obtain ⟨hf, _, _, _⟩ := diskLoop_spec env.numChunks fuel 0 env.initSt evs lex hd
      cases lex <;>
        (simp only at hex
         rw [← hex] at hlog
         first
         | (simp only [fatalLog] at hlog
            exact Option.noConfusion hlog)
         | (simp only [fatalLog, Option.some_inj] at hlog
            subst hlog
            obtain ⟨pre, hpre⟩ := hf _ rfl
            exact ⟨pre, by simp [hpre]⟩))

/-- C3 corrected: only seek, truncate and sync errors are fatal to the disk loop:
they are logged and the loop returns at once (the log is the last event before the
deferred close/remove). A write error is logged but aborts nothing: the loop still
attempts every remaining chunk of the iteration (if it does not finish the write
pass, it is because of the stop signal or a `crypto/rand` failure, never because a
write failed), and a non-EOF read error ends only the read phase of the current
iteration: the iteration completes and the loop continues. -/
theorem diskErrorPolicy (env : DiskEnv) (fuel : Nat) :
    ((filesystemBenchmark env fuel).2 = .syncErr →
      ∃ pre, (filesystemBenchmark env fuel).1 = pre ++ [.syncErrLog, .closeFile, .removeFile]) ∧
    ((filesystemBenchmark env fuel).2 = .truncateErr →
      ∃ pre, (filesystemBenchmark env fuel).1 = pre ++ [.truncErrLog, .closeFile, .removeFile]) ∧
    ((filesystemBenchmark env fuel).2 = .seekWriteErr ∨
        (filesystemBenchmark env fuel).2 = .seekReadErr →
      ∃ pre, (filesystemBenchmark env fuel).1 = pre ++ [.seekErrLog, .closeFile, .removeFile]) ∧
    (∀ i rem st, ((writePhase i rem st).2.2 = none → (writePhase i rem st).2.1.length = rem) ∧
      ∀ e, (writePhase i rem st).2.2 = some e → e = .stopped ∨ e = .randErr) ∧
    (∀ m k st stf evs ctl, diskIter m k st = (stf, evs, ctl) →
      .readErrLog ∈ evs → ctl = none) := by
  refine ⟨?_, ?_, ?_, ?_, ?_⟩
  · intro hex
    exact filesystemBenchmark_fatal env fuel .syncErr .syncErrLog hex rfl
  · intro hex
    exact filesystemBenchmark_fatal env fuel .truncateErr .truncErrLog hex rfl
  · intro hex
    rcases hex with hex | hex
    · exact filesystemBenchmark_fatal env fuel .seekWriteErr .seekErrLog hex rfl
    · exact filesystemBenchmark_fatal env fuel .seekReadErr .seekErrLog hex rfl
  · intro i rem st
    exact ⟨writePhase_all_chunks rem i st, fun e he => writePhase_exit rem i st e he⟩
  · intro m k st stf evs ctl hd hmem
    exact (diskIter_spec m k st stf evs ctl hd).2.2.2.2 hmem

/-- Concrete instance of corrected C3: a sync failure on the first iteration ends
the loop with the sync log as the last event before the deferred cleanup. -/
theorem diskErrorPolicy_witness :
    (filesystemBenchmark ⟨1, true, [], [], [], [], [false], [], [], 99⟩ 1).2 = .syncErr ∧
    ∃ pre, (filesystemBenchmark ⟨1, true, [], [], [], [], [false], [], [], 99⟩ 1).1
      = pre ++ [.syncErrLog, .closeFile, .removeFile] :=
  ⟨by decide, (diskErrorPolicy ⟨1, true, [], [], [], [], [false], [], [], 99⟩ 1).1 (by decide)⟩

/-- Result of one run of the memory/disk worker. -/
inductive MFResult
  | growCancelled (st : GrowSt)
  | growFuelOut
  | disk (count : Nat) (evs : List DiskEv) (ex : DiskExit)
deriving Repr, DecidableEq

/-- `memoryAndFilesystemBenchmark` (src/main.go lines 209-250): compute
`targetMemory`, grow the chunk set until `allocated >= targetMemory` (each
appended chunk being `mkChunk chunkSize.toNat`, tracked here by count), and only
on reaching the target hand the chunk set to `filesystemBenchmark` (line 249); a
cancellation observed during growth returns at line 231, before the disk phase.
The stop channel is shared, so the disk phase starts with the polls already spent
by the allocator counted against the same stop point. -/
def memoryAndFilesystemBenchmark (avail : Int) (memoryPercent : ℚ) (chunkSizeMB : Int)
    (stopAfter growFuel : Nat) (env : DiskEnv) (diskFuel : Nat) : MFResult :=
  let chunkSize := chunkSizeMB * 1024 * 1024
  let target := memTarget avail memoryPercent
  match memGrowLoop chunkSize target stopAfter growFuel ⟨0, 0, 0⟩ with
  | none => .growFuelOut
  | some (.cancelled st) => .growCancelled st
  | some (.done st) =>
    let r := filesystemBenchmark
      { env with numChunks := st.count, stopAfter := stopAfter - st.polls } diskFuel
    .disk st.count r.1 r.2

/-- C6: the allocator appends chunks of exactly `chunkSizeMB` MB (each appended
chunk is the `mkChunk` fill of `chunkSizeMB * 1024 * 1024` bytes, and the
allocated counter advances by exactly that per chunk), polls the stop signal
before each append (on cancellation exactly `stopAfter` chunks were appended -
one per successful poll), stops as soon as the accumulated size reaches the
target `availableMemory x memoryPercent`, and on cancellation during growth
returns without ever invoking the disk loop. -/
theorem memoryAllocation_policy (avail : Int) (memoryPercent : ℚ) (chunkSizeMB : Int)
    (stopAfter growFuel diskFuel : Nat) (env : DiskEnv) (target : Int)
    (hcs : 0 < chunkSizeMB)
    (htarget : target = memTarget avail memoryPercent) :
    (mkChunk (chunkSizeMB * 1024 * 1024).toNat).length = (chunkSizeMB * 1024 * 1024).toNat ∧
    (∀ st, memGrowLoop (chunkSizeMB * 1024 * 1024) target stopAfter growFuel ⟨0, 0, 0⟩
        = some (.cancelled st) →
      memoryAndFilesystemBenchmark avail memoryPercent chunkSizeMB stopAfter growFuel env
          diskFuel = .growCancelled st ∧
      (∀ c evs ex, memoryAndFilesystemBenchmark avail memoryPercent chunkSizeMB stopAfter
          growFuel env diskFuel ≠ .disk c evs ex) ∧
      st.allocated = st.count * (chunkSizeMB * 1024 * 1024) ∧
      st.count = stopAfter ∧ st.allocated < target) ∧
    (∀ st, memGrowLoop (chunkSizeMB * 1024 * 1024) target stopAfter growFuel ⟨0, 0, 0⟩
        = some (.done st) →
      st.allocated = st.count * (chunkSizeMB * 1024 * 1024) ∧
      target ≤ st.allocated ∧
      (0 ≤ target → st.allocated < target + chunkSizeMB * 1024 * 1024)) := by
  refine ⟨mkChunk_length _, ?_, ?_⟩
  · intro st hrun
    have hinv := memGrowLoop_invariant (chunkSizeMB * 1024 * 1024) target stopAfter growFuel
      ⟨0, 0, 0⟩ (.cancelled st) hrun ⟨by simp, rfl⟩
    obtain ⟨ha, hb, hc2, hd2, he⟩ := hinv.1 st rfl
    have hres : memoryAndFilesystemBenchmark avail memoryPercent chunkSizeMB stopAfter
        growFuel env diskFuel = .growCancelled st := by
      simp only [memoryAndFilesystemBenchmark, ← htarget, hrun]
    refine ⟨hres, ?_, ha, ?_, hd2⟩
    · intro c evs ex hcon
      rw [hres] at hcon
      cases hcon
    · have hpe := he (Nat.zero_le stopAfter)
      omega
  · intro st hrun
    have hinv := memGrowLoop_invariant (chunkSizeMB * 1024 * 1024) target stopAfter growFuel
      ⟨0, 0, 0⟩ (.done st) hrun ⟨by simp, rfl⟩
    obtain ⟨ha, hb, hc2, hd2⟩ := hinv.2 st rfl
    refine ⟨ha, hc2, ?_⟩
    intro htnn
    by_cases hzero : (0 : Int) < target
    · have := hd2 (by simpa using hzero)
      omega
    · have hst : st = ⟨0, 0, 0⟩ := by
        have hdone2 := memGrowLoop_done_of_reached (chunkSizeMB * 1024 * 1024) target
          stopAfter growFuel ⟨0, 0, 0⟩ (by simp; omega)
        rw [hdone2] at hrun
        simp only [Option.some_inj] at hrun
        cases hrun
        rfl
      subst hst
      simp only
      omega

/-- Concrete instance of C6: 10 MB available, fraction 1/2, 1 MB chunks, stop after
2 polls - growth is cancelled with exactly 2 chunks (2 MB) allocated and the disk
loop is never started. -/
theorem memoryAllocation_policy_witness :
    (0 : Int) < 1 ∧ (5242880 : Int) = memTarget 10485760 (1/2) ∧
    memGrowLoop 1048576 5242880 2 10 ⟨0, 0, 0⟩ = some (.cancelled ⟨2, 2097152, 2⟩) ∧
    memoryAndFilesystemBenchmark 10485760 (1/2) 1 2 10 ⟨0, true, [], [], [], [], [], [], [], 0⟩ 1
      = .growCancelled ⟨2, 2097152, 2⟩ ∧
    (2097152 : Int) = 2 * 1048576 ∧ (2 : Nat) = 2 := by
  have ht : (5242880 : Int) = memTarget 10485760 (1/2) := by
    rw [memTarget, show ((10485760 : Int) : ℚ) * (1 / 2) = ((5242880 : Int) : ℚ) by norm_num]
    exact (Int.floor_intCast 5242880).symm
  have hrun : memGrowLoop 1048576 5242880 2 10 ⟨0, 0, 0⟩
      = some (.cancelled ⟨2, 2097152, 2⟩) := by decide
  have happ := (memoryAllocation_policy 10485760 (1/2) 1 2 10 1
    ⟨0, true, [], [], [], [], [], [], [], 0⟩ 5242880 (by decide) ht).2.1 ⟨2, 2097152, 2⟩ hrun
  exact ⟨by decide, ht, hrun, happ.1, by decide, rfl⟩

/-- C10 counterexample: the available-memory query returning the positive value 1
does not make the target positive: with memory fraction 1/2 the float product
truncates to a zero target, the allocator finishes with zero chunks, and the disk
loop is entered with an empty chunk set, reaching the diagnostic branch. -/
theorem positive_avail_zero_target_cex :
    (0 : Int) < 1 ∧ memTarget 1 (1/2) = 0 ∧
    memoryAndFilesystemBenchmark 1 (1/2) 1 5 5 ⟨0, true, [], [], [], [], [], [], [], 0⟩ 1
      = .disk 0 [.emptyDiag] .emptyChunks := by
  have ht : memTarget 1 (1/2) = 0 := by
    rw [memTarget, show ((1 : Int) : ℚ) * (1 / 2) = 1 / 2 by norm_num,
      Int.floor_eq_zero_iff, Set.mem_Ico]
    norm_num
  refine ⟨by norm_num, ht, ?_⟩
  simp only [memoryAndFilesystemBenchmark, ht]
  decide

/-- C10 corrected: when growth finishes uncancelled, the allocated total is the
chunk count times the chunk size, at least the target, and overshoots it by less
than one chunk; but a positive available-memory value does not guarantee a
positive target (the float product truncates - see the counterexample), so the
empty-chunk-set diagnostic of the disk loop is only unreachable under the added
hypothesis that the computed target itself is positive, in which case at least
one chunk exists and the disk phase starts without the diagnostic. -/
theorem allocation_size_and_disk_start (avail : Int) (memoryPercent : ℚ)
    (chunkSizeMB : Int) (stopAfter growFuel diskFuel : Nat) (env : DiskEnv)
    (target : Int) (st : GrowSt)
    (hcs : 0 < chunkSizeMB)
    (htarget : target = memTarget avail memoryPercent)
    (htnn : 0 ≤ target)
    (hdone : memGrowLoop (chunkSizeMB * 1024 * 1024) target stopAfter growFuel ⟨0, 0, 0⟩
      = some (.done st)) :
    st.allocated = st.count * (chunkSizeMB * 1024 * 1024) ∧
    target ≤ st.allocated ∧
    st.allocated < target + chunkSizeMB * 1024 * 1024 ∧
    (0 < target →
      0 < st.count ∧
      DiskEv.emptyDiag ∉ (filesystemBenchmark
        { env with numChunks := st.count, stopAfter := stopAfter - st.polls } diskFuel).1 ∧
      memoryAndFilesystemBenchmark avail memoryPercent chunkSizeMB stopAfter growFuel env
          diskFuel
        = .disk st.count (filesystemBenchmark { env with numChunks := st.count, stopAfter := stopAfter - st.polls } diskFuel).1 (filesystemBenchmark { env with numChunks := st.count, stopAfter := stopAfter - st.polls } diskFuel).2) := by
  obtain ⟨_, hover⟩ := (memoryAllocation_policy avail memoryPercent chunkSizeMB stopAfter
    growFuel diskFuel env target hcs htarget)
  obtain ⟨ha, hb, hc2⟩ := hover.2 st hdone
  refine ⟨ha, hb, hc2 htnn, ?_⟩
  intro hpos
  have hcount : 0 < st.count := by
    rcases Nat.eq_zero_or_pos st.count with hz | hp
    · exfalso
      rw [hz] at ha
      simp at ha
      omega
    · exact hp
  refine ⟨hcount, ?_, ?_⟩
  · exact filesystemBenchmark_no_emptyDiag _ diskFuel (by simp; omega)
  · simp only [memoryAndFilesystemBenchmark, ← htarget, hdone]

/-- Concrete instance of corrected C10: 10 MB available, fraction 1/2, 1 MB
chunks, no cancellation - 5 chunks of 1 MB are allocated, exactly reaching the
5 MB target, and the disk loop starts on a non-empty chunk set. -/
theorem allocation_size_and_disk_start_witness :
    (0 : Int) < 1 ∧ (5242880 : Int) = memTarget 10485760 (1/2) ∧ (0 : Int) ≤ 5242880 ∧
    memGrowLoop 1048576 5242880 1000 10 ⟨0, 0, 0⟩ = some (.done ⟨5, 5242880, 5⟩) ∧
    ((5242880 : Int) = 5 * 1048576 ∧ (5242880 : Int) ≤ 5242880 ∧
      (5242880 : Int) < 5242880 + 1048576 ∧ (0 : Nat) < 5) := by
  have ht : (5242880 : Int) = memTarget 10485760 (1/2) := by
    rw [memTarget, show ((10485760 : Int) : ℚ) * (1 / 2) = ((5242880 : Int) : ℚ) by norm_num]
    exact (Int.floor_intCast 5242880).symm
  have hrun : memGrowLoop 1048576 5242880 1000 10 ⟨0, 0, 0⟩
      = some (.done ⟨5, 5242880, 5⟩) := by decide
  have happ := allocation_size_and_disk_start 10485760 (1/2) 1 1000 10 1
    ⟨0, true, [], [], [], [], [], [], [], 0⟩ 5242880 ⟨5, 5242880, 5⟩ (by decide) ht
    (by decide) hrun
  exact ⟨by decide, ht, by decide, hrun,
    happ.1, happ.2.1, happ.2.2.1, (happ.2.2.2 (by decide)).1⟩

/-- Outcome of the start of `main` relative to the memory-percent validation
(src/main.go lines 69-72): a value outside the accepted interval prints and calls
`os.Exit(1)` before the worker goroutines of lines 101-114 are started. Float
literals 0.1 and 0.95 and the parsed flag value are modelled over ℚ. -/
inductive MainPhase
  | exitedBeforeWorkers
  | workersStarted (cpuWorkers : Nat)
deriving Repr, DecidableEq

/-- The validation step of `main` (src/main.go lines 69-72):
`if config.memoryPercent < 0.1 || config.memoryPercent > 0.95 { ...; os.Exit(1) }`. -/
def mainValidate (memoryPercent : ℚ) (cpuThreads : Nat) : MainPhase :=
  if memoryPercent < 1/10 ∨ memoryPercent > 19/20 then .exitedBeforeWorkers
  else .workersStarted cpuThreads

/-- C9: validation accepts every memory fraction in [0.1, 0.95] inclusive and goes
on to start the workers; every value below 0.1 or above 0.95 (negative values and
values above 1 included) makes the process exit before any worker is started. -/
theorem memoryPercent_validation (p : ℚ) (t : Nat) :
    (1/10 ≤ p ∧ p ≤ 19/20 → mainValidate p t = .workersStarted t) ∧
    (p < 1/10 ∨ 19/20 < p → mainValidate p t = .exitedBeforeWorkers) := by
  constructor
  · intro h
    rw [mainValidate, if_neg]
    intro hcon
    rcases hcon with hcon | hcon
    · exact absurd h.1 (by exact not_le.mpr hcon)
    · exact absurd h.2 (by exact not_le.mpr hcon)
  · intro h
    rw [mainValidate, if_pos h]

/-- Concrete instances of C9: both endpoints and an interior point are accepted;
0.05, 0.96, -0.1 and 2 are rejected before workers start. -/
theorem memoryPercent_validation_witness :
    mainValidate (1/10) 4 = .workersStarted 4 ∧
    mainValidate (19/20) 4 = .workersStarted 4 ∧
    mainValidate (1/2) 4 = .workersStarted 4 ∧
    mainValidate (1/20) 4 = .exitedBeforeWorkers ∧
    mainValidate (24/25) 4 = .exitedBeforeWorkers ∧
    mainValidate (-1/10) 4 = .exitedBeforeWorkers ∧
    mainValidate 2 4 = .exitedBeforeWorkers :=
  ⟨(memoryPercent_validation _ 4).1 ⟨by norm_num, by norm_num⟩,
   (memoryPercent_validation _ 4).1 ⟨by norm_num, by norm_num⟩,
   (memoryPercent_validation _ 4).1 ⟨by norm_num, by norm_num⟩,
   (memoryPercent_validation _ 4).2 (Or.inl (by norm_num)),
   (memoryPercent_validation _ 4).2 (Or.inr (by norm_num)),
   (memoryPercent_validation _ 4).2 (Or.inl (by norm_num)),
   (memoryPercent_validation _ 4).2 (Or.inr (by norm_num))⟩

end PerfTest
